import Mathlib

/-!
Shallow embedding of the temporal detection-reliability pipeline of
`deface/deface.py` (bespoke-inc/deface): the threshold timeline, the
axis-aligned box geometry (overlap test, one-pass clustering, union
representative), and the history-based reliability filter.

Numbers (pixel coordinates, scores, seconds, fps) are modelled as exact
rationals; numpy float arrays are modelled as lists of rationals, and the
`np.float32` cast on the representative output is not modelled (all pinned
values in the claims are exactly representable).  Fallible operations
(indexing `ordered_dets[0]` on a possibly-empty list) return `Option`.
-/

namespace Deface

/-- A detection row `[x1, y1, x2, y2, score]` as produced by the detector. -/
structure Det where
  x1 : ℚ
  y1 : ℚ
  x2 : ℚ
  y2 : ℚ
  score : ℚ
  deriving DecidableEq, Repr

/-- A union of overlapping detections (a cluster), as built by
`unionize_overlapping_dets`. -/
abbrev Cluster := List Det

/-- The clustering of one frame, as appended to the history. -/
abbrev Generation := List Cluster

/-- The detection history: an ordered list of past generations. -/
abbrev History := List Generation

/-- Embedding of `has_overlap(det, other)`: closed-interval overlap of the two
boxes on both axes. -/
def has_overlap (det other : Det) : Bool :=
  (decide (det.x1 ≤ other.x2) && decide (det.x2 ≥ other.x1)) &&
    (decide (det.y1 ≤ other.y2) && decide (det.y2 ≥ other.y1))

/-- Embedding of `has_overlap_with_union(det, union)`: `det` overlaps some
member of `union`. -/
def has_overlap_with_union (det : Det) (union : Cluster) : Bool :=
  union.any fun other => has_overlap det other

/-- The sort key `lambda x: (x[0], x[1])` used by `unionize_overlapping_dets`. -/
def detKey (d : Det) : ℚ × ℚ := (d.x1, d.y1)

/-- Lexicographic comparison of the sort keys `(x1, y1)`, as Python compares
the key tuples. -/
def detLe (a b : Det) : Bool :=
  decide (a.x1 < b.x1) || (decide (a.x1 = b.x1) && decide (a.y1 ≤ b.y1))

/-- Embedding of `sorted(dets, key=lambda x: (x[0], x[1]))`: a stable sort by
the key `(x1, y1)`, realised by `List.mergeSort` (which is stable). -/
def sortDets (dets : List Det) : List Det := dets.mergeSort detLe

/-- The scan loop of `unionize_overlapping_dets`: `done` holds the closed
unions in order, `current` is `unions[-1]`, and each detection is appended to
`current` iff it overlaps some member of `current`, otherwise it opens a new
union. -/
def scanUnions : Generation → Cluster → List Det → Generation
  | done, current, [] => done ++ [current]
  | done, current, det :: rest =>
    if has_overlap_with_union det current then
      scanUnions done (current ++ [det]) rest
    else
      scanUnions (done ++ [current]) [det] rest

/-- Embedding of `unionize_overlapping_dets(dets)`.  The source reads
`ordered_dets[0]` unconditionally, which raises on an empty input, so the
embedding returns `none` there. -/
def unionize_overlapping_dets (dets : List Det) : Option Generation :=
  match sortDets dets with
  | [] => none
  | d :: rest => some (scanUnions [] [d] rest)

/-- Python round / `np.rint`: round half to even, on exact rationals. -/
def pyRound (q : ℚ) : ℤ :=
  let f : ℤ := ⌊q⌋
  let r : ℚ := q - f
  if r < 1 / 2 then f
  else if 1 / 2 < r then f + 1
  else if f % 2 = 0 then f else f + 1

/-- Embedding of `np.rint` as a rational-valued function (numpy keeps the
float type; the value is the even-rounded integer). -/
def rintQ (q : ℚ) : ℚ := (pyRound q : ℤ)

/-- Embedding of `np.floor` as a rational-valued function. -/
def floorQ (q : ℚ) : ℚ := (⌊q⌋ : ℤ)

/-- Binary maximum of two rationals, written out so that it evaluates by the
decidable order on `ℚ`. -/
def qmax (a b : ℚ) : ℚ := if a ≤ b then b else a

/-- Binary minimum of two rationals. -/
def qmin (a b : ℚ) : ℚ := if a ≤ b then a else b

/-- Python `max` over a list of numbers; the source only applies it to
non-empty lists (a union in the multi-member branch), where it equals the
greatest element; the empty-list default is never reached. -/
def pymax : List ℚ → ℚ
  | [] => 0
  | x :: xs => xs.foldl qmax x

/-- Python `min` over a list of numbers; only applied to non-empty lists. -/
def pymin : List ℚ → ℚ
  | [] => 0
  | x :: xs => xs.foldl qmin x

/-- Embedding of `np.average(values, weights=weights)`:
`sum(v * w) / sum(w)`. -/
def wavg (values weights : List ℚ) : ℚ :=
  (List.zipWith (· * ·) values weights).sum / weights.sum

/-- The multi-member branch of `get_union_rep`: area-weighted rounded
centroids, max extents centered on the weighted centroid, clamped to the
members' union extents, max score. -/
def union_rep (union : Cluster) : Det :=
  let x1s := union.map fun d => d.x1
  let y1s := union.map fun d => d.y1
  let x2s := union.map fun d => d.x2
  let y2s := union.map fun d => d.y2
  let widths := List.zipWith (fun x2 x1 => x2 - x1) x2s x1s
  let heights := List.zipWith (fun y2 y1 => y2 - y1) y2s y1s
  let areas := List.zipWith (· * ·) widths heights
  let max_w := pymax widths
  let max_h := pymax heights
  let x_centroids := List.zipWith (fun x1 x2 => rintQ ((x1 + x2) / 2)) x1s x2s
  let y_centroids := List.zipWith (fun y1 y2 => rintQ ((y1 + y2) / 2)) y1s y2s
  let union_x_centroid := wavg x_centroids areas
  let union_y_centroid := wavg y_centroids areas
  let union_x1 := qmax (pymin x1s) (floorQ (union_x_centroid - max_w / 2))
  let union_y1 := qmax (pymin y1s) (floorQ (union_y_centroid - max_h / 2))
  let union_x2 := qmin (pymax x2s) (floorQ (union_x_centroid + max_w / 2))
  let union_y2 := qmin (pymax y2s) (floorQ (union_y_centroid + max_h / 2))
  let union_score := pymax (union.map fun d => d.score)
  ⟨union_x1, union_y1, union_x2, union_y2, union_score⟩

/-- Embedding of `get_union_rep(unions)`: empty unions are skipped, a
singleton union is its own representative, a multi-member union gets the
synthesized representative. -/
def get_union_rep : List Cluster → List Det
  | [] => []
  | union :: rest =>
    match union with
    | [] => get_union_rep rest
    | [d] => d :: get_union_rep rest
    | _ => union_rep union :: get_union_rep rest

/-- Embedding of the guard `dets.any()` on the numpy detection array: true
iff some entry of some row is non-zero. -/
def detsAny (dets : List Det) : Bool :=
  dets.any fun d =>
    decide (d.x1 ≠ 0) || decide (d.y1 ≠ 0) || decide (d.x2 ≠ 0) ||
      decide (d.y2 ≠ 0) || decide (d.score ≠ 0)

/-- The per-detection counting loop of `filter_by_dets_history`: for each
generation of the history, the counter is incremented once (the inner loop
breaks after the first overlapping union) iff some union of that generation
overlaps the detection. -/
def overlapCount (det : Det) (history : History) : ℕ :=
  history.foldl
    (fun counter generation =>
      if generation.any (fun union => has_overlap_with_union det union) then
        counter + 1
      else counter)
    0

/-- The `reliables` list built by `filter_by_dets_history`: the detections,
in input order, whose overlap count against the given history reaches the
consistency threshold. -/
def reliablesOf (dets : List Det) (history : History) (ct : ℕ) : List Det :=
  dets.filter fun det => decide (ct ≤ overlapCount det history)

/-- Embedding of `filter_by_dets_history(dets, history, consistency_threshold)`.
When the guard `dets.any()` fails, it returns the empty result and the
unchanged history; otherwise it appends this frame's clustering to the
history and returns the representatives of the clusters of the reliable
detections (empty when none is reliable).  `none` models the index error of
`unionize_overlapping_dets` on an empty list, which is unreachable here. -/
def filter_by_dets_history (dets : List Det) (history : History) (ct : ℕ) :
    Option (List Det × History) :=
  if detsAny dets then
    let reliables := reliablesOf dets history ct
    match unionize_overlapping_dets dets with
    | none => none
    | some new_unions =>
      let history' := history ++ [new_unions]
      if reliables.isEmpty then some ([], history')
      else
        match unionize_overlapping_dets reliables with
        | none => none
        | some reliable_unions => some (get_union_rep reliable_unions, history')
  else some ([], history)

/-- The caller-side slice `history[-5:]` used by `video_detect` before each
`filter_by_dets_history` call. -/
def lastN (n : ℕ) (l : History) : History := l.drop (l.length - n)

/-- Embedding of the `ThresholdTimeline` state: the frame-indexed threshold
dict in insertion order, the default threshold, and the fps. -/
structure ThresholdTimeline where
  thresholds : List (ℤ × ℚ)
  default_threshold : ℚ
  fps : ℚ
  deriving DecidableEq, Repr

/-- Python dict assignment `m[k] = v` on an insertion-ordered association
list: an existing key keeps its position and gets the new value, a new key
is appended. -/
def dictSet (m : List (ℤ × ℚ)) (k : ℤ) (v : ℚ) : List (ℤ × ℚ) :=
  if m.any fun p => p.1 = k then
    m.map fun p => if p.1 = k then (k, v) else p
  else m ++ [(k, v)]

/-- Embedding of `ThresholdTimeline.__init__`: frame 0 is keyed to the
default threshold when second 0 is absent from the schedule, then each
`(second, thresh)` pair keys frame `int(round(fps * second))`, in the
schedule's iteration order. -/
def mkThresholdTimeline (thresholds_by_sec : List (ℚ × ℚ))
    (default_threshold fps : ℚ) : ThresholdTimeline :=
  let init : List (ℤ × ℚ) :=
    if thresholds_by_sec.any (fun p => p.1 = 0) then []
    else [(0, default_threshold)]
  let thresholds := thresholds_by_sec.foldl
    (fun m p => dictSet m (pyRound (fps * p.1)) p.2) init
  ⟨thresholds, default_threshold, fps⟩

/-- The loop of `threshold_for_frame`: walk the dict entries in insertion
order, taking each value whose frame index is at most the queried index, and
stop at the first entry whose index exceeds it. -/
def thresholdLoop (frame_idx : ℤ) : ℚ → List (ℤ × ℚ) → ℚ
  | threshold, [] => threshold
  | threshold, (idx, thresh) :: rest =>
    if frame_idx ≥ idx then thresholdLoop frame_idx thresh rest
    else threshold

/-- Embedding of `ThresholdTimeline.threshold_for_frame(frame_idx)`. -/
def ThresholdTimeline.threshold_for_frame (tt : ThresholdTimeline)
    (frame_idx : ℤ) : ℚ :=
  thresholdLoop frame_idx tt.default_threshold tt.thresholds

/-- Reference function stating the specified behaviour in the spec's words:
the value associated with the greatest keyed frame index that is at most
`frame_idx`, falling back to the default threshold when no key qualifies.
It is compared against the implementation's `threshold_for_frame`. -/
def spec_threshold_for_frame (tt : ThresholdTimeline) (frame_idx : ℤ) : ℚ :=
  match tt.thresholds.filter (fun p => decide (p.1 ≤ frame_idx)) with
  | [] => tt.default_threshold
  | e :: es => (es.foldl (fun best p => if best.1 < p.1 then p else best) e).2

/-! Helper lemmas about the embedded operations. -/

theorem sortDets_perm (dets : List Det) : (sortDets dets).Perm dets :=
  List.mergeSort_perm dets detLe

theorem sortDets_ne_nil {dets : List Det} (hne : dets ≠ []) : sortDets dets ≠ [] := by
  intro h
  exact hne (List.nil_perm.mp (h ▸ sortDets_perm dets))

theorem unionize_some (dets : List Det) (hne : dets ≠ []) :
    ∃ g, unionize_overlapping_dets dets = some g := by
  cases hs : sortDets dets with
  | nil => exact absurd hs (sortDets_ne_nil hne)
  | cons d rest =>
    exact ⟨scanUnions [] [d] rest, by simp [unionize_overlapping_dets, hs]⟩

theorem detsAny_ne_nil {dets : List Det} (h : detsAny dets = true) : dets ≠ [] := by
  obtain ⟨d, hd, -⟩ := List.any_eq_true.mp h
  exact List.ne_nil_of_mem hd

theorem scanUnions_flatten (l : List Det) :
    ∀ (done : Generation) (current : Cluster),
      (scanUnions done current l).flatten = done.flatten ++ current ++ l := by
  induction l with
  | nil =>
    intro done current
    simp [scanUnions]
  | cons d rest ih =>
    intro done current
    by_cases h : has_overlap_with_union d current = true
    · simp [scanUnions, h, ih, List.append_assoc]
    · simp [scanUnions, h, ih, List.append_assoc]

theorem overlapCount_eq_countP (det : Det) (history : History) :
    overlapCount det history =
      history.countP fun g => g.any fun u => has_overlap_with_union det u := by
  have key : ∀ (l : History) (n : ℕ),
      l.foldl
        (fun counter generation =>
          if generation.any (fun union => has_overlap_with_union det union) then
            counter + 1
          else counter) n =
        n + l.countP fun g => g.any fun u => has_overlap_with_union det u := by
    intro l
    induction l with
    | nil => simp
    | cons g t ih =>
      intro n
      simp only [List.foldl_cons, List.countP_cons]
      by_cases hg : (g.any fun u => has_overlap_with_union det u) = true
      · rw [if_pos hg, if_pos hg, ih]
        omega
      · rw [if_neg hg, if_neg hg, ih]
        omega
  simpa [overlapCount] using key history 0

/-- C8: `has_overlap(a, b)` is true iff the boxes overlap on both axes with
closed intervals; it is symmetric; and every box of the data model (one with
`x1 ≤ x2` and `y1 ≤ y2`) overlaps itself. -/
theorem has_overlap_characterized (a b : Det) :
    (has_overlap a b = true ↔
      a.x1 ≤ b.x2 ∧ a.x2 ≥ b.x1 ∧ a.y1 ≤ b.y2 ∧ a.y2 ≥ b.y1)
    ∧ has_overlap a b = has_overlap b a
    ∧ (a.x1 ≤ a.x2 → a.y1 ≤ a.y2 → has_overlap a a = true) := by
  refine ⟨?_, ?_, ?_⟩
  · simp [has_overlap, and_assoc]
  · rw [Bool.eq_iff_iff]
    simp only [has_overlap, Bool.and_eq_true, decide_eq_true_eq]
    constructor
    · rintro ⟨⟨h1, h2⟩, h3, h4⟩
      exact ⟨⟨h2, h1⟩, h4, h3⟩
    · rintro ⟨⟨h1, h2⟩, h3, h4⟩
      exact ⟨⟨h2, h1⟩, h4, h3⟩
  · intro h1 h2
    simp [has_overlap, h1, h2]

/-- Witness for C8 at a concrete valid box. -/
theorem has_overlap_characterized_witness :
    has_overlap ⟨0, 0, 10, 10, 1⟩ ⟨0, 0, 10, 10, 1⟩ = true :=
  (has_overlap_characterized ⟨0, 0, 10, 10, 1⟩ ⟨0, 0, 10, 10, 1⟩).2.2
    (by norm_num) (by norm_num)

/-- C4: on an empty detection list the filter returns an empty result and
the unchanged history, with no generation appended. -/
theorem filter_empty_dets (history : History) (ct : ℕ) :
    filter_by_dets_history [] history ct = some ([], history) := rfl

/-- C6: the pinned representative of the two-member union
`[[100,100,200,200,0.5],[150,150,190,190,0.25]]` is exactly
`[102,102,200,200,0.5]`. -/
theorem get_union_rep_pinned :
    get_union_rep
        [[⟨100, 100, 200, 200, (1 : ℚ)/2⟩, ⟨150, 150, 190, 190, (1 : ℚ)/4⟩]] =
      [⟨102, 102, 200, 200, (1 : ℚ)/2⟩] := by
  simp only [get_union_rep, union_rep, wavg, rintQ, pyRound, floorQ, qmax, qmin,
    pymax, pymin, List.map, List.zipWith, List.foldl, List.sum]
  norm_num

theorem filter_of_detsAny (dets : List Det) (history : History) (ct : ℕ)
    (hA : detsAny dets = true) (g : Generation)
    (hg : unionize_overlapping_dets dets = some g) :
    filter_by_dets_history dets history ct =
      if (reliablesOf dets history ct).isEmpty then some ([], history ++ [g])
      else
        (unionize_overlapping_dets (reliablesOf dets history ct)).map
          fun g2 => (get_union_rep g2, history ++ [g]) := by
  by_cases hR : (reliablesOf dets history ct).isEmpty = true
  · simp [filter_by_dets_history, hA, hg, hR]
  · cases hu : unionize_overlapping_dets (reliablesOf dets history ct) with
    | none =>
      obtain ⟨g2, hg2⟩ := unionize_some (reliablesOf dets history ct)
        (fun h0 => hR (by rw [h0]; rfl))
      rw [hu] at hg2
      cases hg2
    | some g2 => simp [filter_by_dets_history, hA, hg, hR, hu]

/-- C9: the filter decides emptiness with an any-nonzero test: a detection
array whose entries are all zero takes the empty path (empty result, no
history append), while any detection with a non-zero entry takes the normal
path, where one generation is appended to the history. -/
theorem detsAny_semantics (dets : List Det) (history : History) (ct : ℕ) :
    (detsAny dets = true ↔ ∃ d ∈ dets,
        d.x1 ≠ 0 ∨ d.y1 ≠ 0 ∨ d.x2 ≠ 0 ∨ d.y2 ≠ 0 ∨ d.score ≠ 0)
    ∧ (detsAny dets = false →
        filter_by_dets_history dets history ct = some ([], history))
    ∧ (detsAny dets = true →
        (filter_by_dets_history dets history ct).map Prod.snd =
          (unionize_overlapping_dets dets).map fun g => history ++ [g]) := by
  refine ⟨?_, ?_, ?_⟩
  · simp [detsAny, or_assoc]
  · intro h
    simp [filter_by_dets_history, h]
  · intro hA
    obtain ⟨g, hg⟩ := unionize_some dets (detsAny_ne_nil hA)
    rw [filter_of_detsAny dets history ct hA g hg, hg]
    by_cases hR : (reliablesOf dets history ct).isEmpty = true
    · simp [hR]
    · obtain ⟨g2, hg2⟩ := unionize_some (reliablesOf dets history ct)
        (fun h0 => hR (by rw [h0]; rfl))
      simp [hR, hg2]

/-- Witness for C9: a non-empty all-zero detection array is treated exactly
like an empty frame. -/
theorem detsAny_semantics_witness :
    filter_by_dets_history [⟨0, 0, 0, 0, 0⟩] [] 2 = some ([], []) :=
  (detsAny_semantics [⟨0, 0, 0, 0, 0⟩] [] 2).2.1 rfl

/-- C10: `unionize_overlapping_dets` fails (returns `none`, modelling the
index error on `ordered_dets[0]`) exactly on the empty list; on any
non-empty list it succeeds, and `filter_by_dets_history` never reaches the
error branch for any input. -/
theorem unionize_empty_none_total (dets : List Det) (hne : dets ≠ []) :
    unionize_overlapping_dets ([] : List Det) = none
    ∧ (unionize_overlapping_dets dets).isSome = true
    ∧ ∀ (dets' : List Det) (history : History) (ct : ℕ),
        (filter_by_dets_history dets' history ct).isSome = true := by
  refine ⟨by simp [unionize_overlapping_dets, sortDets], ?_, ?_⟩
  · obtain ⟨g, hg⟩ := unionize_some dets hne
    rw [hg]
    rfl
  · intro dets' history ct
    by_cases hA : detsAny dets' = true
    · obtain ⟨g, hg⟩ := unionize_some dets' (detsAny_ne_nil hA)
      rw [filter_of_detsAny dets' history ct hA g hg]
      by_cases hR : (reliablesOf dets' history ct).isEmpty = true
      · simp [hR]
      · obtain ⟨g2, hg2⟩ := unionize_some (reliablesOf dets' history ct)
          (fun h0 => hR (by rw [h0]; rfl))
        simp [hR, hg2]
    · simp [filter_by_dets_history, hA]

/-- Witness for C10 at a concrete non-empty detection list. -/
theorem unionize_empty_none_total_witness :
    (unionize_overlapping_dets [⟨0, 0, 1, 1, 1⟩]).isSome = true :=
  (unionize_empty_none_total [⟨0, 0, 1, 1, 1⟩] (by simp)).2.1

/-- Counterexample for C1: with an input history of 5 generations and a
non-empty detection array, `filter_by_dets_history` returns a history of 6
generations, exceeding the claimed bound of 5: the filter itself never drops
the oldest entry. -/
theorem filter_history_exceeds_five :
    ((filter_by_dets_history [⟨0, 0, 10, 10, 1⟩]
          (List.replicate 5 [[⟨0, 0, 1, 1, 1⟩]]) 0).map fun r => r.2.length) =
        some 6
    ∧ ¬(6 ≤ 5) := by
  constructor
  · have hg : unionize_overlapping_dets [⟨0, 0, 10, 10, 1⟩] =
        some [[⟨0, 0, 10, 10, 1⟩]] := by
      simp [unionize_overlapping_dets, sortDets, scanUnions]
    rw [filter_of_detsAny [⟨0, 0, 10, 10, 1⟩]
        (List.replicate 5 [[⟨0, 0, 1, 1, 1⟩]]) 0 (by rfl) _ hg]
    simp [reliablesOf, hg]
  · omega

/-- C1 (amended): on the normal path the filter appends exactly one
generation and performs no truncation, so the returned history has one more
entry than the history passed in; the bound of 5 is maintained by the caller
`video_detect`, which passes only the `history[-5:]` slice — a list of at
most 5 generations — into each call. -/
theorem filter_history_growth (dets : List Det) (history : History) (ct : ℕ)
    (hne : detsAny dets = true) :
    ((filter_by_dets_history dets history ct).map fun r => r.2.length) =
      some (history.length + 1)
    ∧ ∀ h : History, (lastN 5 h).length ≤ 5 := by
  constructor
  · obtain ⟨g, hg⟩ := unionize_some dets (detsAny_ne_nil hne)
    rw [filter_of_detsAny dets history ct hne g hg]
    by_cases hR : (reliablesOf dets history ct).isEmpty = true
    · simp [hR]
    · obtain ⟨g2, hg2⟩ := unionize_some (reliablesOf dets history ct)
        (fun h0 => hR (by rw [h0]; rfl))
      simp [hR, hg2]
  · intro h
    simp only [lastN, List.length_drop]
    omega

/-- Witness for C1's amended theorem at a concrete input. -/
theorem filter_history_growth_witness :
    ((filter_by_dets_history [⟨0, 0, 10, 10, 1⟩] [] 0).map fun r => r.2.length) =
        some (List.length ([] : History) + 1)
    ∧ ∀ h : History, (lastN 5 h).length ≤ 5 :=
  filter_history_growth [⟨0, 0, 10, 10, 1⟩] [] 0 rfl

/-- Counterexample for C3: a non-empty detection array whose entries are all
zero is not classified at all — with consistency threshold 0 the claim says
the detection is reliable on first appearance, but the filter returns an
empty result (and does not even append to the history). -/
theorem reliable_zero_dets_cex :
    filter_by_dets_history [⟨0, 0, 0, 0, 0⟩] [] 0 = some ([], [])
    ∧ ([⟨0, 0, 0, 0, 0⟩] : List Det) ≠ [] :=
  ⟨rfl, by simp⟩

/-- C3 (amended): for a detection array that passes the `dets.any()` guard
(some entry non-zero), a detection is in the `reliables` list of
`filter_by_dets_history` iff the number of generations of the given history
containing some overlapping cluster — counted at most once per generation —
reaches the consistency threshold; with threshold 0 every detection is
reliable, and the filter returns the representatives of this frame's own
clustering. -/
theorem reliables_characterized (dets : List Det) (history : History) (ct : ℕ)
    (hA : detsAny dets = true) :
    (∀ d : Det, d ∈ reliablesOf dets history ct ↔
        d ∈ dets ∧
          ct ≤ history.countP fun g => g.any fun u => has_overlap_with_union d u)
    ∧ reliablesOf dets history 0 = dets
    ∧ (filter_by_dets_history dets history 0).map Prod.fst =
        (unionize_overlapping_dets dets).map get_union_rep := by
  have hzero : reliablesOf dets history 0 = dets :=
    List.filter_eq_self.mpr fun a _ => by simp
  refine ⟨?_, hzero, ?_⟩
  · intro d
    simp [reliablesOf, List.mem_filter, overlapCount_eq_countP]
  · obtain ⟨g, hg⟩ := unionize_some dets (detsAny_ne_nil hA)
    rw [filter_of_detsAny dets history 0 hA g hg]
    have hRne : ¬(reliablesOf dets history 0).isEmpty = true := by
      rw [hzero]
      cases hd : dets with
      | nil => exact absurd hd (detsAny_ne_nil hA)
      | cons a t => simp
    rw [if_neg hRne, hzero, hg]
    simp

/-- Witness for C3's amended theorem: at threshold 0 the whole frame is the
reliables list. -/
theorem reliables_characterized_witness :
    reliablesOf [⟨0, 0, 1, 1, 1⟩] [] 0 = [⟨0, 0, 1, 1, 1⟩] :=
  (reliables_characterized [⟨0, 0, 1, 1, 1⟩] [] 0 rfl).2.1

theorem detLe_trans (a b c : Det) (hab : detLe a b = true) (hbc : detLe b c = true) :
    detLe a c = true := by
  simp only [detLe, Bool.or_eq_true, Bool.and_eq_true, decide_eq_true_eq] at *
  rcases hab with h1 | ⟨h1, h1y⟩ <;> rcases hbc with h2 | ⟨h2, h2y⟩
  · exact Or.inl (h1.trans h2)
  · exact Or.inl (h2 ▸ h1)
  · exact Or.inl (h1 ▸ h2)
  · exact Or.inr ⟨h1.trans h2, h1y.trans h2y⟩

theorem detLe_total (a b : Det) : (detLe a b || detLe b a) = true := by
  simp only [detLe, Bool.or_eq_true, Bool.and_eq_true, decide_eq_true_eq]
  rcases lt_trichotomy a.x1 b.x1 with h | h | h
  · exact Or.inl (Or.inl h)
  · rcases le_total a.y1 b.y1 with hy | hy
    · exact Or.inl (Or.inr ⟨h, hy⟩)
    · exact Or.inr (Or.inr ⟨h.symm, hy⟩)
  · exact Or.inr (Or.inl h)

theorem sortDets_sorted (dets : List Det) :
    (sortDets dets).Pairwise fun a b => detLe a b = true :=
  List.sorted_mergeSort detLe_trans detLe_total dets

theorem sortDets_filter_key (dets : List Det) (k : ℚ × ℚ) :
    (sortDets dets).filter (fun d => decide (detKey d = k)) =
      dets.filter fun d => decide (detKey d = k) := by
  have hpw : (dets.filter fun d => decide (detKey d = k)).Pairwise
      fun a b => detLe a b = true := by
    apply List.pairwise_of_forall_mem_list
    intro a ha b hb
    have hka : detKey a = k := by simpa using (List.mem_filter.mp ha).2
    have hkb : detKey b = k := by simpa using (List.mem_filter.mp hb).2
    have hab : detKey a = detKey b := hka.trans hkb.symm
    have hx : a.x1 = b.x1 := congrArg Prod.fst hab
    have hy : a.y1 = b.y1 := congrArg Prod.snd hab
    simp [detLe, hx, hy]
  have hsub : List.Sublist (dets.filter fun d => decide (detKey d = k))
      (sortDets dets) :=
    List.sublist_mergeSort detLe_trans detLe_total hpw (List.filter_sublist dets)
  have hidem : (dets.filter fun d => decide (detKey d = k)).filter
      (fun d => decide (detKey d = k)) = dets.filter fun d => decide (detKey d = k) :=
    List.filter_eq_self.mpr fun a ha => (List.mem_filter.mp ha).2
  have hsub2 : List.Sublist (dets.filter fun d => decide (detKey d = k))
      ((sortDets dets).filter fun d => decide (detKey d = k)) := by
    have := hsub.filter fun d => decide (detKey d = k)
    rwa [hidem] at this
  have hlen : ((sortDets dets).filter fun d => decide (detKey d = k)).length =
      (dets.filter fun d => decide (detKey d = k)).length :=
    ((sortDets_perm dets).filter _).length_eq
  exact (hsub2.eq_of_length hlen.symm).symm

/-- C5: `unionize_overlapping_dets` scans the input in stable `(x1, y1)`
ascending order — the flattening of the produced clusters is exactly the
stable sort of the input, which is a permutation of the input (so every
detection belongs to exactly one cluster, counted with multiplicity), is
sorted by the key, and preserves the relative input order of equal keys. -/
theorem unionize_partitions (dets : List Det) (hne : dets ≠ []) :
    (unionize_overlapping_dets dets).map (fun g => g.flatten) = some (sortDets dets)
    ∧ (sortDets dets).Perm dets
    ∧ ((sortDets dets).Pairwise fun a b => detLe a b = true)
    ∧ ∀ k : ℚ × ℚ,
        (sortDets dets).filter (fun d => decide (detKey d = k)) =
          dets.filter fun d => decide (detKey d = k) := by
  refine ⟨?_, sortDets_perm dets, sortDets_sorted dets, sortDets_filter_key dets⟩
  cases hs : sortDets dets with
  | nil => exact absurd hs (sortDets_ne_nil hne)
  | cons d rest =>
    simp [unionize_overlapping_dets, hs, scanUnions_flatten]

/-- Witness for C5 at a concrete two-detection input. -/
theorem unionize_partitions_witness :
    (unionize_overlapping_dets [⟨5, 5, 6, 6, 1⟩, ⟨0, 0, 1, 1, 1⟩]).map
        (fun g => g.flatten) =
      some (sortDets [⟨5, 5, 6, 6, 1⟩, ⟨0, 0, 1, 1, 1⟩]) :=
  (unionize_partitions [⟨5, 5, 6, 6, 1⟩, ⟨0, 0, 1, 1, 1⟩] (by simp)).1

theorem qmax_eq_max (a b : ℚ) : qmax a b = max a b := by
  unfold qmax
  by_cases h : a ≤ b
  · rw [if_pos h, max_eq_right h]
  · rw [if_neg h, max_eq_left (le_of_lt (lt_of_not_le h))]

theorem qmin_eq_min (a b : ℚ) : qmin a b = min a b := by
  unfold qmin
  by_cases h : a ≤ b
  · rw [if_pos h, min_eq_left h]
  · rw [if_neg h, min_eq_right (le_of_lt (lt_of_not_le h))]

theorem qmax_comm (a b : ℚ) : qmax a b = qmax b a := by
  simp [qmax_eq_max, max_comm]

theorem qmin_comm (a b : ℚ) : qmin a b = qmin b a := by
  simp [qmin_eq_min, min_comm]

theorem foldl_qmax_perm {l l' : List ℚ} (hp : l.Perm l') (a : ℚ) :
    l.foldl qmax a = l'.foldl qmax a :=
  hp.foldl_eq'
    (fun x _ y _ z => by
      simp only [qmax_eq_max]
      rw [max_assoc, max_comm x y, ← max_assoc]) a

theorem foldl_qmin_perm {l l' : List ℚ} (hp : l.Perm l') (a : ℚ) :
    l.foldl qmin a = l'.foldl qmin a :=
  hp.foldl_eq'
    (fun x _ y _ z => by
      simp only [qmin_eq_min]
      rw [min_assoc, min_comm x y, ← min_assoc]) a

theorem pymax_perm {l l' : List ℚ} (hp : l.Perm l') : pymax l = pymax l' := by
  induction hp with
  | nil => rfl
  | cons x p ih => exact foldl_qmax_perm p x
  | swap x y l =>
    show List.foldl qmax (qmax y x) l = List.foldl qmax (qmax x y) l
    rw [qmax_comm]
  | trans p1 p2 ih1 ih2 => exact ih1.trans ih2

theorem pymin_perm {l l' : List ℚ} (hp : l.Perm l') : pymin l = pymin l' := by
  induction hp with
  | nil => rfl
  | cons x p ih => exact foldl_qmin_perm p x
  | swap x y l =>
    show List.foldl qmin (qmin y x) l = List.foldl qmin (qmin x y) l
    rw [qmin_comm]
  | trans p1 p2 ih1 ih2 => exact ih1.trans ih2

theorem pymax_map_perm {u u' : Cluster} (hp : u.Perm u') (f : Det → ℚ) :
    pymax (u.map f) = pymax (u'.map f) :=
  pymax_perm (hp.map f)

theorem pymin_map_perm {u u' : Cluster} (hp : u.Perm u') (f : Det → ℚ) :
    pymin (u.map f) = pymin (u'.map f) :=
  pymin_perm (hp.map f)

theorem summap_perm {u u' : Cluster} (hp : u.Perm u') (f : Det → ℚ) :
    (u.map f).sum = (u'.map f).sum :=
  (hp.map f).sum_eq

theorem zipWith_map_same {α β γ : Type} (f : α → β → γ) (g : Det → α)
    (h : Det → β) : ∀ l : List Det,
      List.zipWith f (l.map g) (l.map h) = l.map fun d => f (g d) (h d) := by
  intro l
  induction l with
  | nil => rfl
  | cons d t ih => simp [ih]

theorem union_rep_perm {u u' : Cluster} (hp : u.Perm u') :
    union_rep u = union_rep u' := by
  simp only [union_rep, wavg, zipWith_map_same]
  simp only [pymax_map_perm hp, pymin_map_perm hp, summap_perm hp]

/-- C7: the representative computed by `get_union_rep` is invariant under
permutation of the members of a non-empty cluster. -/
theorem union_rep_perm_invariant (u u' : Cluster) (hne : u ≠ [])
    (hp : u.Perm u') : get_union_rep [u] = get_union_rep [u'] := by
  cases u with
  | nil => exact absurd rfl hne
  | cons a t =>
    cases t with
    | nil =>
      have hu' : u' = [a] := List.perm_singleton.mp hp.symm
      rw [hu']
    | cons b t2 =>
      have hl := hp.length_eq
      cases u' with
      | nil => simp at hl
      | cons a' r =>
        cases r with
        | nil => simp at hl
        | cons b' t' =>
          show [union_rep (a :: b :: t2)] = [union_rep (a' :: b' :: t')]
          rw [union_rep_perm hp]

/-- Witness for C7 at a concrete two-member cluster and its swap. -/
theorem union_rep_perm_invariant_witness :
    get_union_rep [[⟨0, 0, 2, 2, 1⟩, ⟨1, 1, 3, 3, (1 : ℚ)/2⟩]] =
      get_union_rep [[⟨1, 1, 3, 3, (1 : ℚ)/2⟩, ⟨0, 0, 2, 2, 1⟩]] :=
  union_rep_perm_invariant _ _ (by simp)
    (List.Perm.swap (⟨1, 1, 3, 3, (1 : ℚ)/2⟩ : Det) (⟨0, 0, 2, 2, 1⟩ : Det) [])

theorem thresholdLoop_sorted (i : ℤ) :
    ∀ (l : List (ℤ × ℚ)), (l.Pairwise fun p q => p.1 < q.1) → ∀ t : ℚ,
      thresholdLoop i t l = ((l.filter fun p => decide (p.1 ≤ i)).map Prod.snd).getLastD t := by
  intro l
  induction l with
  | nil =>
    intro _ t
    rfl
  | cons e rest ih =>
    intro hpw t
    obtain ⟨k, v⟩ := e
    by_cases hk : i ≥ k
    · have hdec : decide ((k, v).1 ≤ i) = true := by simpa using hk
      rw [thresholdLoop, if_pos hk, List.filter_cons, hdec]
      simp only [if_true, List.map_cons, List.getLastD_cons]
      exact ih (List.Pairwise.of_cons hpw) v
    · have hrest : rest.filter (fun p => decide (p.1 ≤ i)) = [] := by
        rw [List.filter_eq_nil_iff]
        intro p hp
        have hkp : k < p.1 := (List.pairwise_cons.mp hpw).1 p hp
        simp only [decide_eq_true_eq]
        omega
      have hdec : decide ((k, v).1 ≤ i) = false := by
        simp only [decide_eq_false_iff_not]
        omega
      rw [thresholdLoop, if_neg hk, List.filter_cons, hdec]
      simp [hrest]

theorem foldl_best_sorted :
    ∀ (es : List (ℤ × ℚ)) (e : ℤ × ℚ),
      ((e :: es).Pairwise fun p q => p.1 < q.1) →
      es.foldl (fun best p => if best.1 < p.1 then p else best) e =
        (e :: es).getLast (List.cons_ne_nil e es) := by
  intro es
  induction es with
  | nil =>
    intro e _
    rfl
  | cons p tl ih =>
    intro e hpw
    have hep : e.1 < p.1 := (List.pairwise_cons.mp hpw).1 p (List.mem_cons_self p tl)
    rw [List.foldl_cons, if_pos hep, ih p (List.Pairwise.of_cons hpw)]
    exact (List.getLast_cons (List.cons_ne_nil p tl)).symm

theorem map_snd_getLastD :
    ∀ (es : List (ℤ × ℚ)) (t : ℚ) (e : ℤ × ℚ),
      ((e :: es).map Prod.snd).getLastD t = ((e :: es).getLast (List.cons_ne_nil e es)).2 := by
  intro es
  induction es with
  | nil =>
    intro t e
    rfl
  | cons p tl ih =>
    intro t e
    rw [List.map_cons, List.getLastD_cons, List.getLast_cons (List.cons_ne_nil p tl)]
    exact ih e.2 p

/-- C2 (amended): when the frame-index keys of the timeline are in strictly
ascending insertion order (as happens when the schedule's seconds arrive in
ascending order), `threshold_for_frame` returns the value of the greatest
keyed frame index that is at most the queried index; and an empty schedule
behaves as the constant function returning the default threshold.  Without
the ordering hypothesis the scan follows insertion order and stops at the
first larger key, which disagrees with the greatest-key rule. -/
theorem threshold_for_frame_sorted_correct (tt : ThresholdTimeline)
    (hs : tt.thresholds.Pairwise fun p q => p.1 < q.1) (i : ℤ) :
    tt.threshold_for_frame i = spec_threshold_for_frame tt i
    ∧ ∀ (d fps : ℚ) (j : ℤ), 0 ≤ j →
        (mkThresholdTimeline [] d fps).threshold_for_frame j = d := by
  constructor
  · rw [ThresholdTimeline.threshold_for_frame,
      thresholdLoop_sorted i tt.thresholds hs tt.default_threshold,
      spec_threshold_for_frame]
    have hpwf : (tt.thresholds.filter fun p => decide (p.1 ≤ i)).Pairwise
        fun p q => p.1 < q.1 := hs.filter _
    cases hf : tt.thresholds.filter fun p => decide (p.1 ≤ i) with
    | nil => rfl
    | cons e es =>
      rw [hf] at hpwf
      show (List.map Prod.snd (e :: es)).getLastD tt.default_threshold =
        (es.foldl (fun best p => if best.1 < p.1 then p else best) e).2
      rw [foldl_best_sorted es e hpwf]
      exact map_snd_getLastD es tt.default_threshold e
  · intro d fps j hj
    show thresholdLoop j d [(0, d)] = d
    rw [thresholdLoop]
    split
    · rfl
    · rfl

/-- Witness for C2's amended theorem at a concrete ascending timeline. -/
theorem threshold_for_frame_sorted_correct_witness :
    (⟨[(0, 1/2), (2, 1/5), (10, 3/5)], 1/2, 2⟩ : ThresholdTimeline).threshold_for_frame 100 =
      spec_threshold_for_frame ⟨[(0, 1/2), (2, 1/5), (10, 3/5)], 1/2, 2⟩ 100
    ∧ ∀ (d fps : ℚ) (j : ℤ), 0 ≤ j →
        (mkThresholdTimeline [] d fps).threshold_for_frame j = d :=
  threshold_for_frame_sorted_correct ⟨[(0, 1/2), (2, 1/5), (10, 3/5)], 1/2, 2⟩
    (by decide) 100

/-- Counterexample for C2: with the schedule `{5: 0.6, 1: 0.2}` (keys in
descending order), default 0.5 and fps 2, frame 100 gets threshold 0.2 from
the insertion-order scan, while the greatest keyed frame index at most 100
is 10, whose value is 0.6. -/
theorem threshold_insertion_order_cex :
    (mkThresholdTimeline [(5, 3/5), (1, 1/5)] (1/2) 2).threshold_for_frame 100 = 1/5
    ∧ spec_threshold_for_frame (mkThresholdTimeline [(5, 3/5), (1, 1/5)] (1/2) 2) 100 = 3/5
    ∧ ((1 : ℚ)/5) ≠ 3/5 := by
  have h1 : pyRound ((2 : ℚ) * 5) = 10 := by norm_num [pyRound]
  have h1' : pyRound (10 : ℚ) = 10 := by norm_num [pyRound]
  have h2 : pyRound ((2 : ℚ) * 1) = 2 := by norm_num [pyRound]
  have h2' : pyRound (2 : ℚ) = 2 := by norm_num [pyRound]
  have htt : mkThresholdTimeline [(5, 3/5), (1, 1/5)] (1/2) 2 =
      (⟨[(0, 1/2), (10, 3/5), (2, 1/5)], 1/2, 2⟩ : ThresholdTimeline) := by
    simp [mkThresholdTimeline, dictSet, h1, h1', h2, h2']
  rw [htt]
  refine ⟨rfl, rfl, by norm_num⟩

end Deface
